import Mathlib

/-!
# Verification of the Diff-SVC data-pipeline core

Shallow embedding of `basics/base_binarizer.py` (train/valid splitting and
dataset binarization) and `basics/base_task.py` (batch-budget configuration),
with theorems settling the specification's claims about them.

Python sets are modelled as duplicate-free `List String` values whose order
stands for the set's (unspecified) iteration order.  Python exceptions are
modelled with `Except String`; `set.remove` of an absent element yields
`.error "KeyError"`, exactly as in CPython.
-/

namespace DiffSVC

/-- Character-level model of Python `str.split(':')`: the list of segments of
a character list cut at every colon.  Splitting the empty string yields one
empty segment, as in Python. -/
def splitOnColon : List Char → List (List Char)
  | [] => [[]]
  | c :: cs =>
    let r := splitOnColon cs
    if c = ':' then [] :: r else (c :: r.headI) :: r.tail

/-- Python `name.split(':')`. -/
def colonSplit (s : String) : List String :=
  (splitOnColon s.data).map String.mk

/-- Python `name.split(':')[-1]` — the portion of a name after the last
colon (the whole name when it has no colon).  The split list is never empty,
so the default of `getLastD` is never used. -/
def colonSuffix (s : String) : String :=
  (colonSplit s).getLastD s

/-- Python `name.startswith(p)`. -/
def startswith (s p : String) : Bool :=
  p.data.isPrefixOf s.data

/-- Python `set.add` on the list representation of a set: append the element
when it is absent, keep the list unchanged when it is already present. -/
def setAdd (l : List String) (x : String) : List String :=
  if x ∈ l then l else l ++ [x]

/-- Python `set.remove` on the list representation of a set: remove the
element, raising `KeyError` when it is absent. -/
def setRemove (l : List String) (x : String) : Except String (List String) :=
  if x ∈ l then .ok (l.erase x) else .error "KeyError"

/-- `BaseBinarizer.split_train_valid_set`, first tier (lines 95-98): for each
prefix in a snapshot of the prefix set, if the prefix is itself an item name,
add it to the valid set and remove it from the live prefix set.  State is
`(live prefixes, valid names)`. -/
def tier1 : List String → List String → List String × List String →
    Except String (List String × List String)
  | [], _, st => .ok st
  | p :: rest, names, (pfxs, valid) =>
    if p ∈ names then
      let valid' := setAdd valid p
      match setRemove pfxs p with
      | .error e => .error e
      | .ok pfxs' => tier1 rest names (pfxs', valid')
    else tier1 rest names (pfxs, valid)

/-- Inner loop shared by the second and third tiers of
`split_train_valid_set` (lines 100-104 and 106-110): scan every item name;
on each name matching the prefix under `mtc`, add the name to the valid set
and remove the prefix from the live prefix set (there is no `break`, so a
second matching name removes an already-removed prefix and raises
`KeyError`). -/
def scanTierInner (mtc : String → String → Bool) (p : String) :
    List String → List String × List String →
    Except String (List String × List String)
  | [], st => .ok st
  | n :: rest, (pfxs, valid) =>
    if mtc n p then
      let valid' := setAdd valid n
      match setRemove pfxs p with
      | .error e => .error e
      | .ok pfxs' => scanTierInner mtc p rest (pfxs', valid')
    else scanTierInner mtc p rest (pfxs, valid)

/-- Outer loop shared by the second and third tiers: iterate the snapshot of
the prefix set taken at tier entry, running the inner scan for each prefix. -/
def scanTier (mtc : String → String → Bool) :
    List String → List String → List String × List String →
    Except String (List String × List String)
  | [], _, st => .ok st
  | p :: rest, names, st =>
    match scanTierInner mtc p names st with
    | .error e => .error e
    | .ok st' => scanTier mtc rest names st'

/-- Fourth tier of `split_train_valid_set` (lines 111-114), inner loop: add
every item whose colon-suffix starts with the prefix.  No prefix is removed,
so this tier cannot raise. -/
def tier4Inner (p : String) (names valid : List String) : List String :=
  names.foldl (fun v n => if startswith (colonSuffix n) p then setAdd v n else v) valid

/-- Fourth tier, outer loop over the remaining live prefixes. -/
def tier4 (pfxs names valid : List String) : List String :=
  pfxs.foldl (fun v p => tier4Inner p names v) valid

/-- `BaseBinarizer.split_train_valid_set` (lines 86-119).  `namesEnum` is an
enumeration of `set(self.item_names)` in its iteration order and
`testPfxEnum` an enumeration of `hparams['test_prefixes']`; both are
deduplicated on entry, modelling the `set(...)` conversions.  The second and
third tiers instantiate the shared scan with colon-suffix equality
(`name.split(':')[-1] == prefix`) and `name.startswith(prefix)`.  The valid
set is returned sorted; the train list keeps the enumeration order of the
item-name set, filtered to the names not in the valid set. -/
def split_train_valid_set (namesEnum testPfxEnum : List String) :
    Except String (List String × List String) :=
  let names := namesEnum.dedup
  let pfxs0 := testPfxEnum.dedup
  match tier1 pfxs0 names (pfxs0, []) with
  | .error e => .error e
  | .ok st1 =>
    match scanTier (fun n p => colonSuffix n == p) st1.1 names st1 with
    | .error e => .error e
    | .ok st2 =>
      match scanTier (fun n p => startswith n p) st2.1 names st2 with
      | .error e => .error e
      | .ok st3 =>
        let valid4 := tier4 st3.1 names st3.2
        let validSorted := List.insertionSort (fun a b => a ≤ b) valid4
        let train := names.filter (fun x => decide (x ∉ validSorted))
        .ok (train, validSorted)

/-- A binarized record, the output of `process_item` for one item
(`BaseBinarizer.process_item` is abstract; only the fields the pipeline core
reads are modelled, the feature payload is opaque to the core).  `seconds`
is modelled as a rational number. -/
structure BinarizedRecord where
  name : String
  length : Nat
  seconds : ℚ
deriving DecidableEq

/-- An augmentation task `{'func': ..., 'kwargs': ...}`: the keyword
arguments are captured in the function value, so applying the task to a
record is `task.func record` (modelling `task['func'](_item, **task['kwargs'])`). -/
structure AugTask where
  func : BinarizedRecord → BinarizedRecord

/-- The mutable state accumulated by `BaseBinarizer.process_dataset`
(lines 167-190): the sequence of records passed to
`IndexedDatasetBuilder.add_item` in call order, the `lengths` list written
to `{prefix}.lengths`, and the two duration counters. -/
structure BuilderState where
  builderItems : List BinarizedRecord
  lengths : List Nat
  total_sec : ℚ
  total_raw_sec : ℚ
deriving DecidableEq

/-- The state at the start of `process_dataset`: empty builder, empty
lengths, zero duration counters. -/
def initBuilderState : BuilderState := ⟨[], [], 0, 0⟩

/-- Body of the augmentation loop inside `postprocess` (lines 186-190): the
task derives one record from the base record `it`; the derived record is
appended to the builder and its length to `lengths`, and `total_sec` (but
not `total_raw_sec`) grows by its duration. -/
def augStep (it : BinarizedRecord) (s : BuilderState) (task : AugTask) : BuilderState :=
  let aug_item := task.func it
  { s with
    builderItems := s.builderItems ++ [aug_item]
    lengths := s.lengths ++ [aug_item.length]
    total_sec := s.total_sec + aug_item.seconds }

/-- The `postprocess` closure inside `process_dataset` (lines 177-190): a
`None` item returns immediately; otherwise the base record is appended to
the builder and to `lengths` and both duration counters grow, then each
augmentation task planned for the item's name is run against the base
record (`aug_map.get(_item['name'], [])` defaults to no tasks). -/
def postprocess (aug_map : String → List AugTask) (st : BuilderState) :
    Option BinarizedRecord → BuilderState
  | none => st
  | some it =>
    let st1 : BuilderState :=
      { builderItems := st.builderItems ++ [it]
        lengths := st.lengths ++ [it.length]
        total_sec := st.total_sec + it.seconds
        total_raw_sec := st.total_raw_sec + it.seconds }
    (aug_map it.name).foldl (augStep it) st1

/-- `BaseBinarizer.process_dataset` (lines 165-208) on the sequential
`num_workers == 0` path, given the augmentation map: run `process_item` on
each item of the split in order and feed every result to `postprocess`.
`process_item` is abstract in the source (subclass-provided), so it is a
parameter; the item metadata and binarization args it receives are folded
into it. -/
def process_dataset (process_item : String → Option BinarizedRecord)
    (aug_map : String → List AugTask) (item_names : List String) : BuilderState :=
  item_names.foldl (fun st n => postprocess aug_map st (process_item n)) initBuilderState

/-- `process_dataset` including the `apply_augmentation` flag (line 175):
the augmentation map is `arrange_data_augmentation(...)` when the flag is
set and the empty mapping `{}` otherwise. -/
def process_dataset_full (process_item : String → Option BinarizedRecord)
    (arrange_data_augmentation : List String → String → List AugTask)
    (apply_augmentation : Bool) (item_names : List String) : BuilderState :=
  let aug_map := if apply_augmentation then arrange_data_augmentation item_names else fun _ => []
  process_dataset process_item aug_map item_names

/-- One call to `process_dataset` as issued by `BaseBinarizer.process`:
which split, how many workers, and whether augmentation is applied. -/
structure ProcessDatasetCall where
  split_name : String
  num_workers : Nat
  apply_augmentation : Bool
deriving DecidableEq

/-- The two `process_dataset` calls issued by `BaseBinarizer.process`
(lines 154-160): the valid split with the defaults `num_workers=0`,
`apply_augmentation=False`, then the train split with the configured worker
count and augmentation enabled iff `len(self.augmentation_args) > 0`.
`augmentation_args` is modelled by its list of keys. -/
def process_split_calls (num_workers_cfg : Nat) (augmentation_args : List String) :
    List ProcessDatasetCall :=
  [ ⟨"valid", 0, false⟩,
    ⟨"train", num_workers_cfg, decide (0 < augmentation_args.length)⟩ ]

/-- The batch-budget configuration read from `hparams` by
`BaseTask.__init__`. -/
structure TaskConfig where
  max_batch_frames : Int
  max_batch_size : Int
  max_val_batch_frames : Int
  max_val_batch_size : Int
deriving DecidableEq

/-- `BaseTask.__init__`, lines 68-75: read the four batch budgets; a
validation value equal to `-1` is replaced by the corresponding train
value, any other validation value is kept; the train values are never
modified. -/
def base_task_init (h : TaskConfig) : TaskConfig :=
  let self_mbf := h.max_batch_frames
  let self_mbs := h.max_batch_size
  let self_mvbf := if h.max_val_batch_frames = -1 then self_mbf else h.max_val_batch_frames
  let self_mvbs := if h.max_val_batch_size = -1 then self_mbs else h.max_val_batch_size
  ⟨self_mbf, self_mbs, self_mvbf, self_mvbs⟩

/-! ## Helper lemmas about the set operations -/

theorem mem_setAdd {l : List String} {a x : String} :
    x ∈ setAdd l a ↔ x ∈ l ∨ x = a := by
  unfold setAdd
  split
  · constructor
    · exact fun h => Or.inl h
    · rintro (h | rfl) <;> assumption
  · simp [List.mem_append]

theorem nodup_setAdd {l : List String} (h : l.Nodup) (a : String) :
    (setAdd l a).Nodup := by
  unfold setAdd
  split
  · exact h
  · simpa [List.nodup_append] using ⟨h, by assumption⟩

theorem setRemove_ok {l l' : List String} {x : String}
    (h : setRemove l x = .ok l') : x ∈ l ∧ l' = l.erase x := by
  unfold setRemove at h
  split at h
  · injection h with h'
    exact ⟨by assumption, h'.symm⟩
  · exact absurd h (by simp)

/-! ## Characterization of the tiers on successful runs -/

theorem scanTierInner_ok_char (mtc : String → String → Bool) (p : String) :
    ∀ (names pfxs valid pfxs' valid' : List String),
    pfxs.Nodup →
    scanTierInner mtc p names (pfxs, valid) = .ok (pfxs', valid') →
    (∀ x, x ∈ valid' ↔ x ∈ valid ∨ (x ∈ names ∧ mtc x p = true)) ∧
    (∀ q, q ∈ pfxs' ↔ q ∈ pfxs ∧ (q = p → ∀ n ∈ names, ¬ mtc n p = true)) ∧
    pfxs'.Nodup ∧ (valid.Nodup → valid'.Nodup) := by
  intro names
  induction names with
  | nil =>
    intro pfxs valid pfxs' valid' hnd h
    obtain ⟨rfl, rfl⟩ : pfxs' = pfxs ∧ valid' = valid := by
      simpa [scanTierInner, Prod.ext_iff, eq_comm] using h
    refine ⟨by simp, by simp, hnd, fun hv => hv⟩
  | cons n rest ih =>
    intro pfxs valid pfxs' valid' hnd h
    by_cases hm : mtc n p = true
    · rw [scanTierInner, if_pos hm] at h
      rcases hrem : setRemove pfxs p with e | pfxs₁
      · rw [hrem] at h; exact absurd h (by simp)
      · rw [hrem] at h
        obtain ⟨hp_mem, rfl⟩ := setRemove_ok hrem
        obtain ⟨ihv, ihp, ihnd, ihvnd⟩ :=
          ih (pfxs.erase p) (setAdd valid n) pfxs' valid' (hnd.erase p) h
        refine ⟨?_, ?_, ihnd, fun hv => ihvnd (nodup_setAdd hv n)⟩
        · intro x
          rw [ihv, mem_setAdd]
          by_cases hx : x = n
          · subst hx
            simp [hm]
          · simp [hx]
        · intro q
          rw [ihp, hnd.mem_erase_iff]
          constructor
          · rintro ⟨⟨hqp, hq⟩, -⟩
            exact ⟨hq, fun h' => absurd h' hqp⟩
          · rintro ⟨hq, himp⟩
            by_cases hqp : q = p
            · subst hqp
              exact absurd hm (himp rfl n (by simp))
            · exact ⟨⟨hqp, hq⟩, fun h' => absurd h' hqp⟩
    · rw [scanTierInner, if_neg hm] at h
      obtain ⟨ihv, ihp, ihnd, ihvnd⟩ := ih pfxs valid pfxs' valid' hnd h
      refine ⟨?_, ?_, ihnd, ihvnd⟩
      · intro x
        rw [ihv]
        by_cases hx : x = n
        · subst hx
          simp [hm]
        · simp [hx]
      · intro q
        rw [ihp]
        constructor
        · rintro ⟨hq, himp⟩
          refine ⟨hq, fun hqp m hmem => ?_⟩
          rcases List.mem_cons.mp hmem with rfl | hmem'
          · exact hm
          · exact himp hqp m hmem'
        · rintro ⟨hq, himp⟩
          exact ⟨hq, fun hqp m hmem => himp hqp m (List.mem_cons_of_mem n hmem)⟩

theorem scanTier_ok_char (mtc : String → String → Bool) :
    ∀ (snap names pfxs valid pfxs' valid' : List String),
    pfxs.Nodup →
    scanTier mtc snap names (pfxs, valid) = .ok (pfxs', valid') →
    (∀ x, x ∈ valid' ↔ x ∈ valid ∨ (x ∈ names ∧ ∃ p ∈ snap, mtc x p = true)) ∧
    (∀ q, q ∈ pfxs' ↔ q ∈ pfxs ∧ (q ∈ snap → ∀ n ∈ names, ¬ mtc n q = true)) ∧
    pfxs'.Nodup ∧ (valid.Nodup → valid'.Nodup) := by
  intro snap
  induction snap with
  | nil =>
    intro names pfxs valid pfxs' valid' hnd h
    obtain ⟨rfl, rfl⟩ : pfxs' = pfxs ∧ valid' = valid := by
      simpa [scanTier, Prod.ext_iff, eq_comm] using h
    refine ⟨by simp, by simp, hnd, fun hv => hv⟩
  | cons p rest ih =>
    intro names pfxs valid pfxs' valid' hnd h
    rw [scanTier] at h
    rcases hinner : scanTierInner mtc p names (pfxs, valid) with e | st₁
    · rw [hinner] at h; exact absurd h (by simp)
    · rw [hinner] at h
      obtain ⟨iv, ip, ind, ivnd⟩ :=
        scanTierInner_ok_char mtc p names pfxs valid st₁.1 st₁.2 hnd hinner
      obtain ⟨ov, op, ond, ovnd⟩ := ih names st₁.1 st₁.2 pfxs' valid' ind h
      refine ⟨?_, ?_, ond, fun hv => ovnd (ivnd hv)⟩
      · intro x
        rw [ov, iv x]
        constructor
        · rintro ((hx | ⟨hn, hm⟩) | ⟨hn, p', hp', hm⟩)
          · exact Or.inl hx
          · exact Or.inr ⟨hn, p, by simp, hm⟩
          · exact Or.inr ⟨hn, p', List.mem_cons_of_mem p hp', hm⟩
        · rintro (hx | ⟨hn, p', hp', hm⟩)
          · exact Or.inl (Or.inl hx)
          · rcases List.mem_cons.mp hp' with rfl | hp''
            · exact Or.inl (Or.inr ⟨hn, hm⟩)
            · exact Or.inr ⟨hn, p', hp'', hm⟩
      · intro q
        rw [op, ip q]
        constructor
        · rintro ⟨⟨hq, h₁⟩, h₂⟩
          refine ⟨hq, fun hmem n hn => ?_⟩
          rcases List.mem_cons.mp hmem with rfl | hmem'
          · exact h₁ rfl n hn
          · exact h₂ hmem' n hn
        · rintro ⟨hq, himp⟩
          refine ⟨⟨hq, fun hqp => ?_⟩, fun hmem => himp (List.mem_cons_of_mem p hmem)⟩
          subst hqp
          exact himp (List.mem_cons_self _ _)

theorem tier1_ok_char :
    ∀ (snap names pfxs valid pfxs' valid' : List String),
    pfxs.Nodup →
    tier1 snap names (pfxs, valid) = .ok (pfxs', valid') →
    (∀ x, x ∈ valid' ↔ x ∈ valid ∨ (x ∈ snap ∧ x ∈ names)) ∧
    (∀ q, q ∈ pfxs' ↔ q ∈ pfxs ∧ ¬(q ∈ snap ∧ q ∈ names)) ∧
    pfxs'.Nodup ∧ (valid.Nodup → valid'.Nodup) := by
  intro snap
  induction snap with
  | nil =>
    intro names pfxs valid pfxs' valid' hnd h
    obtain ⟨rfl, rfl⟩ : pfxs' = pfxs ∧ valid' = valid := by
      simpa [tier1, Prod.ext_iff, eq_comm] using h
    refine ⟨by simp, by simp, hnd, fun hv => hv⟩
  | cons p rest ih =>
    intro names pfxs valid pfxs' valid' hnd h
    by_cases hp : p ∈ names
    · rw [tier1, if_pos hp] at h
      rcases hrem : setRemove pfxs p with e | pfxs₁
      · rw [hrem] at h; exact absurd h (by simp)
      · rw [hrem] at h
        obtain ⟨hp_mem, rfl⟩ := setRemove_ok hrem
        obtain ⟨iv, ipx, ind, ivnd⟩ :=
          ih names (pfxs.erase p) (setAdd valid p) pfxs' valid' (hnd.erase p) h
        refine ⟨?_, ?_, ind, fun hv => ivnd (nodup_setAdd hv p)⟩
        · intro x
          rw [iv, mem_setAdd]
          by_cases hx : x = p
          · subst hx
            simp [hp]
          · simp [hx]
        · intro q
          rw [ipx, hnd.mem_erase_iff]
          constructor
          · rintro ⟨⟨hqp, hq⟩, h₂⟩
            refine ⟨hq, ?_⟩
            rintro ⟨hmem, hqn⟩
            rcases List.mem_cons.mp hmem with rfl | hmem'
            · exact hqp rfl
            · exact h₂ ⟨hmem', hqn⟩
          · rintro ⟨hq, himp⟩
            by_cases hqp : q = p
            · subst hqp
              exact absurd ⟨List.mem_cons_self q rest, hp⟩ himp
            · exact ⟨⟨hqp, hq⟩, fun hc => himp ⟨List.mem_cons_of_mem p hc.1, hc.2⟩⟩
    · rw [tier1, if_neg hp] at h
      obtain ⟨iv, ipx, ind, ivnd⟩ := ih names pfxs valid pfxs' valid' hnd h
      refine ⟨?_, ?_, ind, ivnd⟩
      · intro x
        rw [iv]
        by_cases hx : x = p
        · subst hx
          simp [hp]
        · simp [hx]
      · intro q
        rw [ipx]
        constructor
        · rintro ⟨hq, h₂⟩
          refine ⟨hq, ?_⟩
          rintro ⟨hmem, hqn⟩
          rcases List.mem_cons.mp hmem with rfl | hmem'
          · exact hp hqn
          · exact h₂ ⟨hmem', hqn⟩
        · rintro ⟨hq, himp⟩
          exact ⟨hq, fun hc => himp ⟨List.mem_cons_of_mem p hc.1, hc.2⟩⟩

theorem tier4Inner_cons (p n : String) (rest valid : List String) :
    tier4Inner p (n :: rest) valid =
      tier4Inner p rest (if startswith (colonSuffix n) p then setAdd valid n else valid) := by
  simp [tier4Inner]

theorem mem_tier4Inner (p : String) :
    ∀ (names valid : List String) (x : String),
    x ∈ tier4Inner p names valid ↔
      x ∈ valid ∨ (x ∈ names ∧ startswith (colonSuffix x) p = true) := by
  intro names
  induction names with
  | nil => intro valid x; simp [tier4Inner]
  | cons n rest ih =>
    intro valid x
    rw [tier4Inner_cons, ih]
    by_cases hs : startswith (colonSuffix n) p = true
    · rw [if_pos hs]
      rw [mem_setAdd]
      by_cases hx : x = n
      · subst hx
        simp [hs]
      · simp [hx]
    · rw [if_neg hs]
      by_cases hx : x = n
      · subst hx
        simp [hs]
      · simp [hx]

theorem nodup_tier4Inner (p : String) :
    ∀ (names valid : List String), valid.Nodup → (tier4Inner p names valid).Nodup := by
  intro names
  induction names with
  | nil => intro valid hv; simpa [tier4Inner] using hv
  | cons n rest ih =>
    intro valid hv
    rw [tier4Inner_cons]
    split
    · exact ih _ (nodup_setAdd hv n)
    · exact ih _ hv

theorem mem_tier4 :
    ∀ (pfxs names valid : List String) (x : String),
    x ∈ tier4 pfxs names valid ↔
      x ∈ valid ∨ (x ∈ names ∧ ∃ p ∈ pfxs, startswith (colonSuffix x) p = true) := by
  intro pfxs
  induction pfxs with
  | nil => intro names valid x; simp [tier4]
  | cons p rest ih =>
    intro names valid x
    have hstep : tier4 (p :: rest) names valid = tier4 rest names (tier4Inner p names valid) := by
      simp [tier4]
    rw [hstep, ih, mem_tier4Inner]
    constructor
    · rintro ((hx | ⟨hn, hs⟩) | ⟨hn, p', hp', hs⟩)
      · exact Or.inl hx
      · exact Or.inr ⟨hn, p, by simp, hs⟩
      · exact Or.inr ⟨hn, p', List.mem_cons_of_mem p hp', hs⟩
    · rintro (hx | ⟨hn, p', hp', hs⟩)
      · exact Or.inl (Or.inl hx)
      · rcases List.mem_cons.mp hp' with rfl | hp''
        · exact Or.inl (Or.inr ⟨hn, hs⟩)
        · exact Or.inr ⟨hn, p', hp'', hs⟩

theorem ball_congr_of_mem_iff {l₁ l₂ : List String}
    (h : ∀ x, x ∈ l₁ ↔ x ∈ l₂) (P : String → Prop) :
    (∀ n ∈ l₁, P n) ↔ (∀ n ∈ l₂, P n) := by
  constructor
  · exact fun hb n hn => hb n ((h n).mpr hn)
  · exact fun hb n hn => hb n ((h n).mp hn)

theorem bex_congr_of_mem_iff {l₁ l₂ : List String}
    (h : ∀ x, x ∈ l₁ ↔ x ∈ l₂) (P : String → Prop) :
    (∃ n ∈ l₁, P n) ↔ (∃ n ∈ l₂, P n) := by
  constructor
  · rintro ⟨n, hn, hP⟩; exact ⟨n, (h n).mp hn, hP⟩
  · rintro ⟨n, hn, hP⟩; exact ⟨n, (h n).mpr hn, hP⟩

theorem split_ok_elim {nE pE train valid : List String}
    (h : split_train_valid_set nE pE = .ok (train, valid)) :
    ∃ st1 st2 st3 : List String × List String,
      tier1 pE.dedup nE.dedup (pE.dedup, []) = .ok st1 ∧
      scanTier (fun n p => colonSuffix n == p) st1.1 nE.dedup st1 = .ok st2 ∧
      scanTier (fun n p => startswith n p) st2.1 nE.dedup st2 = .ok st3 ∧
      valid = List.insertionSort (fun a b => a ≤ b) (tier4 st3.1 nE.dedup st3.2) ∧
      train = nE.dedup.filter (fun x => decide (x ∉ valid)) := by
  simp only [split_train_valid_set] at h
  split at h
  · exact absurd h (by simp)
  · rename_i st1 h1
    split at h
    · exact absurd h (by simp)
    · rename_i st2 h2
      split at h
      · exact absurd h (by simp)
      · rename_i st3 h3
        injection h with h'
        injection h' with htrain hvalid
        refine ⟨st1, st2, st3, h1, h2, h3, hvalid.symm, ?_⟩
        rw [← hvalid, ← htrain]

theorem nodup_tier4 :
    ∀ (pfxs names valid : List String), valid.Nodup → (tier4 pfxs names valid).Nodup := by
  intro pfxs
  induction pfxs with
  | nil => intro names valid hv; simpa [tier4] using hv
  | cons p rest ih =>
    intro names valid hv
    have hstep : tier4 (p :: rest) names valid = tier4 rest names (tier4Inner p names valid) := by
      simp [tier4]
    rw [hstep]
    exact ih _ _ (nodup_tier4Inner p _ _ hv)

/-! ## Helper lemmas about `process_dataset` -/

theorem augfold_lengths_map (it : BinarizedRecord) :
    ∀ (tasks : List AugTask) (s : BuilderState),
    s.lengths = s.builderItems.map (fun r => r.length) →
    (tasks.foldl (augStep it) s).lengths =
      (tasks.foldl (augStep it) s).builderItems.map (fun r => r.length) := by
  intro tasks
  induction tasks with
  | nil => intro s hs; simpa using hs
  | cons task rest ih =>
    intro s hs
    rw [List.foldl_cons]
    exact ih _ (by simp [augStep, hs])

theorem augfold_sizes (it : BinarizedRecord) :
    ∀ (tasks : List AugTask) (s : BuilderState),
    (tasks.foldl (augStep it) s).builderItems.length =
      s.builderItems.length + tasks.length ∧
    (tasks.foldl (augStep it) s).lengths.length = s.lengths.length + tasks.length := by
  intro tasks
  induction tasks with
  | nil => intro s; simp
  | cons task rest ih =>
    intro s
    rw [List.foldl_cons]
    obtain ⟨hb, hl⟩ := ih (augStep it s task)
    constructor
    · rw [hb]; simp [augStep]; omega
    · rw [hl]; simp [augStep]; omega

theorem postprocess_none (aug_map : String → List AugTask) (st : BuilderState) :
    postprocess aug_map st none = st := rfl

theorem postprocess_lengths_map (aug_map : String → List AugTask)
    (st : BuilderState) (o : Option BinarizedRecord)
    (h : st.lengths = st.builderItems.map (fun r => r.length)) :
    (postprocess aug_map st o).lengths =
      (postprocess aug_map st o).builderItems.map (fun r => r.length) := by
  cases o with
  | none => simpa [postprocess] using h
  | some it =>
    rw [postprocess]
    exact augfold_lengths_map it _ _ (by simp [h])

theorem postprocess_some_sizes (aug_map : String → List AugTask)
    (st : BuilderState) (it : BinarizedRecord) :
    (postprocess aug_map st (some it)).builderItems.length =
      st.builderItems.length + ((aug_map it.name).length + 1) ∧
    (postprocess aug_map st (some it)).lengths.length =
      st.lengths.length + ((aug_map it.name).length + 1) := by
  rw [postprocess]
  obtain ⟨hb, hl⟩ := augfold_sizes it (aug_map it.name) _
  constructor
  · rw [hb]; simp; omega
  · rw [hl]; simp; omega

theorem process_dataset_fold_lengths_map
    (process_item : String → Option BinarizedRecord)
    (aug_map : String → List AugTask) :
    ∀ (item_names : List String) (st : BuilderState),
    st.lengths = st.builderItems.map (fun r => r.length) →
    (item_names.foldl (fun s n => postprocess aug_map s (process_item n)) st).lengths =
      (item_names.foldl (fun s n => postprocess aug_map s (process_item n)) st).builderItems.map
        (fun r => r.length) := by
  intro item_names
  induction item_names with
  | nil => intro st hs; simpa using hs
  | cons n rest ih =>
    intro st hs
    rw [List.foldl_cons]
    exact ih _ (postprocess_lengths_map _ _ _ hs)

/-! ## Claim theorems -/

/-- C1, counterexample: `split_train_valid_set` does not return a partition
for every input — on the item-name set `{"x:s", "y:s"}` with test prefix
`"s"` it raises `KeyError` instead of returning, because the colon-suffix
tier removes the prefix at the first matching item and removes it again at
the second. -/
theorem c1_counterexample :
    split_train_valid_set ["x:s", "y:s"] ["s"] = .error "KeyError" := by rfl

/-- C1 (amended): whenever `split_train_valid_set` returns normally (it can
raise `KeyError` instead, see the counterexample), the returned train and
valid sequences are disjoint and their union is exactly the set of item
names — every item lands in exactly one of the two splits. -/
theorem c1_partition_of_ok
    (namesEnum testPfxEnum train valid : List String)
    (h : split_train_valid_set namesEnum testPfxEnum = .ok (train, valid)) :
    (∀ x, (x ∈ train ∨ x ∈ valid) ↔ x ∈ namesEnum) ∧
    (∀ x, ¬(x ∈ train ∧ x ∈ valid)) := by
  obtain ⟨st1, st2, st3, h1, h2, h3, hvalid, htrain⟩ := split_ok_elim h
  obtain ⟨p1, v1⟩ := st1
  obtain ⟨p2, v2⟩ := st2
  obtain ⟨p3, v3⟩ := st3
  obtain ⟨v1c, p1c, nd1, vnd1⟩ := tier1_ok_char _ _ _ _ _ _ (List.nodup_dedup _) h1
  obtain ⟨v2c, p2c, nd2, vnd2⟩ := scanTier_ok_char _ _ _ _ _ _ _ nd1 h2
  obtain ⟨v3c, p3c, nd3, vnd3⟩ := scanTier_ok_char _ _ _ _ _ _ _ nd2 h3
  have hsub : ∀ x, x ∈ valid → x ∈ namesEnum := by
    intro x hx
    rw [hvalid, (List.perm_insertionSort _ _).mem_iff, mem_tier4] at hx
    rw [← List.mem_dedup]
    rcases hx with hx | ⟨hn, -⟩
    · rw [v3c] at hx
      rcases hx with hx | ⟨hn, -⟩
      · rw [v2c] at hx
        rcases hx with hx | ⟨hn, -⟩
        · rw [v1c] at hx
          rcases hx with hx | ⟨-, hn⟩
          · exact absurd hx (List.not_mem_nil x)
          · exact hn
        · exact hn
      · exact hn
    · exact hn
  have htr : ∀ x, x ∈ train ↔ x ∈ namesEnum.dedup ∧ x ∉ valid := by
    intro x
    rw [htrain, List.mem_filter]
    simp
  refine ⟨?_, ?_⟩
  · intro x
    constructor
    · rintro (hx | hx)
      · exact List.mem_dedup.mp ((htr x).mp hx).1
      · exact hsub x hx
    · intro hx
      by_cases hv : x ∈ valid
      · exact Or.inr hv
      · exact Or.inl ((htr x).mpr ⟨List.mem_dedup.mpr hx, hv⟩)
  · intro x
    rintro ⟨ht, hv⟩
    exact ((htr x).mp ht).2 hv

/-- C1, witness: on items `{"item5", "item1"}` with test prefixes
`["item5"]` the split returns `(["item1"], ["item5"])`, and the partition
properties hold at these concrete points. -/
theorem c1_witness :
    ((("item1" : String) ∈ (["item1"] : List String) ∨
        ("item1" : String) ∈ (["item5"] : List String)) ↔
      ("item1" : String) ∈ (["item5", "item1"] : List String)) ∧
    ¬(("item5" : String) ∈ (["item1"] : List String) ∧
      ("item5" : String) ∈ (["item5"] : List String)) :=
  ⟨(c1_partition_of_ok ["item5", "item1"] ["item5"] ["item1"] ["item5"] rfl).1 "item1",
   (c1_partition_of_ok ["item5", "item1"] ["item5"] ["item1"] ["item5"] rfl).2 "item5"⟩

/-- C2: the claim says that on items `{"spk1:song", "spk2:song"}` with test
prefix `"song"` the function returns normally with both items in the valid
set.  The code instead raises `KeyError`: the colon-suffix tier matches
both items but calls `prefixes.remove(prefix)` on each match, and the
second removal fails.  This theorem evaluates the code at the failing
input. -/
theorem c2_colon_suffix_tier_keyerror :
    split_train_valid_set ["spk1:song", "spk2:song"] ["song"] = .error "KeyError" := by rfl

/-- C3: the claim says that on items `{"abc1", "abc2"}` with test prefix
`"abc"` the function returns normally, adding exactly one of the items in
the startswith tier.  The code instead raises `KeyError`: the startswith
tier has no `break`, so after the first hit removes the prefix, the second
hit removes it again and fails.  This theorem evaluates the code at the
failing input. -/
theorem c3_startswith_tier_keyerror :
    split_train_valid_set ["abc1", "abc2"] ["abc"] = .error "KeyError" := by rfl

/-- C4, counterexample: the output of `split_train_valid_set` does not
depend only on the item-name set, and the train sequence is not sorted:
the two enumeration orders of the set `{"a", "b"}` (with no test prefixes)
produce different train sequences. -/
theorem c4_counterexample :
    split_train_valid_set ["a", "b"] [] = .ok (["a", "b"], []) ∧
    split_train_valid_set ["b", "a"] [] = .ok (["b", "a"], []) ∧
    (["a", "b"] : List String).Perm ["b", "a"] ∧
    (["a", "b"] : List String) ≠ ["b", "a"] :=
  ⟨rfl, rfl, by decide, by decide⟩

/-- C4 (amended): for two successful runs over the same item-name set and
prefix set (any enumeration orders), the valid sequences are identical and
sorted, and the train sequences are permutations of each other — the valid
split and the train membership depend only on the sets, but the train
order follows the set's iteration order. -/
theorem c4_valid_deterministic_train_perm
    {nA nB pA pB tA vA tB vB : List String}
    (hn : nA.Perm nB) (hp : pA.Perm pB)
    (hA : split_train_valid_set nA pA = .ok (tA, vA))
    (hB : split_train_valid_set nB pB = .ok (tB, vB)) :
    vA = vB ∧ tA.Perm tB ∧ vA.Sorted (fun a b => a ≤ b) := by
  obtain ⟨sA1, sA2, sA3, hA1, hA2, hA3, hvA, htA⟩ := split_ok_elim hA
  obtain ⟨qA1, wA1⟩ := sA1
  obtain ⟨qA2, wA2⟩ := sA2
  obtain ⟨qA3, wA3⟩ := sA3
  obtain ⟨sB1, sB2, sB3, hB1, hB2, hB3, hvB, htB⟩ := split_ok_elim hB
  obtain ⟨qB1, wB1⟩ := sB1
  obtain ⟨qB2, wB2⟩ := sB2
  obtain ⟨qB3, wB3⟩ := sB3
  have hnm : ∀ x, x ∈ nA.dedup ↔ x ∈ nB.dedup := fun x => hn.dedup.mem_iff
  have hpm : ∀ x, x ∈ pA.dedup ↔ x ∈ pB.dedup := fun x => hp.dedup.mem_iff
  obtain ⟨vA1, pA1, ndA1, vndA1⟩ := tier1_ok_char _ _ _ _ _ _ (List.nodup_dedup _) hA1
  obtain ⟨vB1, pB1, ndB1, vndB1⟩ := tier1_ok_char _ _ _ _ _ _ (List.nodup_dedup _) hB1
  have e1p : ∀ q, q ∈ qA1 ↔ q ∈ qB1 := by
    intro q
    rw [pA1 q, pB1 q]
    constructor
    · rintro ⟨hq, hni⟩
      exact ⟨(hpm q).mp hq, fun hc => hni ⟨(hpm q).mpr hc.1, (hnm q).mpr hc.2⟩⟩
    · rintro ⟨hq, hni⟩
      exact ⟨(hpm q).mpr hq, fun hc => hni ⟨(hpm q).mp hc.1, (hnm q).mp hc.2⟩⟩
  have e1v : ∀ x, x ∈ wA1 ↔ x ∈ wB1 := by
    intro x
    rw [vA1 x, vB1 x]
    constructor
    · rintro (hx | ⟨hp1, hn1⟩)
      · exact Or.inl hx
      · exact Or.inr ⟨(hpm x).mp hp1, (hnm x).mp hn1⟩
    · rintro (hx | ⟨hp1, hn1⟩)
      · exact Or.inl hx
      · exact Or.inr ⟨(hpm x).mpr hp1, (hnm x).mpr hn1⟩
  obtain ⟨vA2, pA2, ndA2, vndA2⟩ := scanTier_ok_char _ _ _ _ _ _ _ ndA1 hA2
  obtain ⟨vB2, pB2, ndB2, vndB2⟩ := scanTier_ok_char _ _ _ _ _ _ _ ndB1 hB2
  have e2p : ∀ q, q ∈ qA2 ↔ q ∈ qB2 := by
    intro q
    rw [pA2 q, pB2 q]
    constructor
    · rintro ⟨hq, himp⟩
      exact ⟨(e1p q).mp hq, fun hs n hnx => himp ((e1p q).mpr hs) n ((hnm n).mpr hnx)⟩
    · rintro ⟨hq, himp⟩
      exact ⟨(e1p q).mpr hq, fun hs n hnx => himp ((e1p q).mp hs) n ((hnm n).mp hnx)⟩
  have e2v : ∀ x, x ∈ wA2 ↔ x ∈ wB2 := by
    intro x
    rw [vA2 x, vB2 x]
    constructor
    · rintro (hx | ⟨hnx, p, hpmem, hmtc⟩)
      · exact Or.inl ((e1v x).mp hx)
      · exact Or.inr ⟨(hnm x).mp hnx, p, (e1p p).mp hpmem, hmtc⟩
    · rintro (hx | ⟨hnx, p, hpmem, hmtc⟩)
      · exact Or.inl ((e1v x).mpr hx)
      · exact Or.inr ⟨(hnm x).mpr hnx, p, (e1p p).mpr hpmem, hmtc⟩
  obtain ⟨vA3, pA3, ndA3, vndA3⟩ := scanTier_ok_char _ _ _ _ _ _ _ ndA2 hA3
  obtain ⟨vB3, pB3, ndB3, vndB3⟩ := scanTier_ok_char _ _ _ _ _ _ _ ndB2 hB3
  have e3p : ∀ q, q ∈ qA3 ↔ q ∈ qB3 := by
    intro q
    rw [pA3 q, pB3 q]
    constructor
    · rintro ⟨hq, himp⟩
      exact ⟨(e2p q).mp hq, fun hs n hnx => himp ((e2p q).mpr hs) n ((hnm n).mpr hnx)⟩
    · rintro ⟨hq, himp⟩
      exact ⟨(e2p q).mpr hq, fun hs n hnx => himp ((e2p q).mp hs) n ((hnm n).mp hnx)⟩
  have e3v : ∀ x, x ∈ wA3 ↔ x ∈ wB3 := by
    intro x
    rw [vA3 x, vB3 x]
    constructor
    · rintro (hx | ⟨hnx, p, hpmem, hmtc⟩)
      · exact Or.inl ((e2v x).mp hx)
      · exact Or.inr ⟨(hnm x).mp hnx, p, (e2p p).mp hpmem, hmtc⟩
    · rintro (hx | ⟨hnx, p, hpmem, hmtc⟩)
      · exact Or.inl ((e2v x).mpr hx)
      · exact Or.inr ⟨(hnm x).mpr hnx, p, (e2p p).mpr hpmem, hmtc⟩
  have e4 : ∀ x, x ∈ tier4 qA3 nA.dedup wA3 ↔ x ∈ tier4 qB3 nB.dedup wB3 := by
    intro x
    rw [mem_tier4, mem_tier4]
    constructor
    · rintro (hx | ⟨hnx, p, hpmem, hs⟩)
      · exact Or.inl ((e3v x).mp hx)
      · exact Or.inr ⟨(hnm x).mp hnx, p, (e3p p).mp hpmem, hs⟩
    · rintro (hx | ⟨hnx, p, hpmem, hs⟩)
      · exact Or.inl ((e3v x).mpr hx)
      · exact Or.inr ⟨(hnm x).mpr hnx, p, (e3p p).mpr hpmem, hs⟩
  have nd4A : (tier4 qA3 nA.dedup wA3).Nodup :=
    nodup_tier4 _ _ _ (vndA3 (vndA2 (vndA1 List.nodup_nil)))
  have nd4B : (tier4 qB3 nB.dedup wB3).Nodup :=
    nodup_tier4 _ _ _ (vndB3 (vndB2 (vndB1 List.nodup_nil)))
  have perm4 : (tier4 qA3 nA.dedup wA3).Perm (tier4 qB3 nB.dedup wB3) :=
    (List.perm_ext_iff_of_nodup nd4A nd4B).mpr e4
  have hsortA : vA.Sorted (fun a b => a ≤ b) := by
    rw [hvA]; exact List.sorted_insertionSort _ _
  have hsortB : vB.Sorted (fun a b => a ≤ b) := by
    rw [hvB]; exact List.sorted_insertionSort _ _
  have hperm : vA.Perm vB := by
    rw [hvA, hvB]
    exact ((List.perm_insertionSort _ _).trans perm4).trans
      (List.perm_insertionSort _ _).symm
  have hveq : vA = vB := List.eq_of_perm_of_sorted hperm hsortA hsortB
  refine ⟨hveq, ?_, hsortA⟩
  rw [htA, htB, hveq]
  exact hn.dedup.filter _

/-- C4, witness: the two enumerations of `{"a", "b"}` with no prefixes both
succeed; the amended theorem applied there yields equal (empty, sorted)
valid sequences and permuted train sequences. -/
theorem c4_witness :
    ([] : List String) = [] ∧
    (["b", "a"] : List String).Perm ["a", "b"] ∧
    ([] : List String).Sorted (fun a b => a ≤ b) :=
  @c4_valid_deterministic_train_perm ["b", "a"] ["a", "b"] [] []
    ["b", "a"] [] ["a", "b"] [] (by decide) (by decide) rfl rfl

/-- C5: given items `{"spk1:a", "a"}` (in either iteration order of the
set) and the single test prefix `"a"`, exactly the item `"a"` is placed in
the valid set and `"spk1:a"` goes to train: the exact-match tier consumes
the prefix before the colon-suffix tier runs. -/
theorem c5_exact_match_precedence :
    split_train_valid_set ["spk1:a", "a"] ["a"] = .ok (["spk1:a"], ["a"]) ∧
    split_train_valid_set ["a", "spk1:a"] ["a"] = .ok (["spk1:a"], ["a"]) :=
  ⟨rfl, rfl⟩

/-- C6: for every run of `process_dataset`, the lengths array persisted to
`{prefix}.lengths` equals, element for element and in the same order, the
`length` field of every record passed to the builder's `add_item`, base and
augmented records interleaved as produced. -/
theorem c6_lengths_equal_builder_lengths
    (process_item : String → Option BinarizedRecord)
    (arrange_data_augmentation : List String → String → List AugTask)
    (apply_augmentation : Bool) (item_names : List String) :
    (process_dataset_full process_item arrange_data_augmentation apply_augmentation
        item_names).lengths =
      (process_dataset_full process_item arrange_data_augmentation apply_augmentation
        item_names).builderItems.map (fun r => r.length) := by
  unfold process_dataset_full process_dataset
  exact process_dataset_fold_lengths_map _ _ _ _ (by simp [initBuilderState])

/-- C7: an item whose `process_item` result is non-null and that has `k`
planned augmentation tasks contributes exactly `k + 1` records to the
builder and exactly `k + 1` entries to the lengths array. -/
theorem c7_augmentation_fanout
    (process_item : String → Option BinarizedRecord)
    (aug_map : String → List AugTask) (ns : List String) (n : String)
    (it : BinarizedRecord) (h : process_item n = some it) :
    (process_dataset process_item aug_map (ns ++ [n])).builderItems.length =
      (process_dataset process_item aug_map ns).builderItems.length +
        ((aug_map it.name).length + 1) ∧
    (process_dataset process_item aug_map (ns ++ [n])).lengths.length =
      (process_dataset process_item aug_map ns).lengths.length +
        ((aug_map it.name).length + 1) := by
  unfold process_dataset
  rw [List.foldl_append, List.foldl_cons, List.foldl_nil]
  simp only [h]
  exact postprocess_some_sizes aug_map _ it

/-- C7, witness: a single item with 2 planned augmentation tasks yields
3 builder records and 3 lengths entries. -/
theorem c7_witness :
    (process_dataset (fun _ => some ⟨"x", 5, 0⟩)
        (fun _ => [⟨fun r => r⟩, ⟨fun r => r⟩]) ["x"]).builderItems.length = 3 ∧
    (process_dataset (fun _ => some ⟨"x", 5, 0⟩)
        (fun _ => [⟨fun r => r⟩, ⟨fun r => r⟩]) ["x"]).lengths.length = 3 := by
  have h := c7_augmentation_fanout (fun _ => some ⟨"x", 5, 0⟩)
    (fun _ => [⟨fun r => r⟩, ⟨fun r => r⟩]) [] "x" ⟨"x", 5, 0⟩ rfl
  exact ⟨h.1.trans (by rfl), h.2.trans (by rfl)⟩

/-- C8: an item for which `process_item` returns `None` contributes nothing
at all — no builder record, no lengths entry, no duration, no augmentation
— and processing continues with the remaining items: the run over
`ns₁ ++ [n] ++ ns₂` ends in the same state as the run over `ns₁ ++ ns₂`. -/
theorem c8_none_skipped
    (process_item : String → Option BinarizedRecord)
    (aug_map : String → List AugTask) (ns₁ ns₂ : List String) (n : String)
    (h : process_item n = none) :
    process_dataset process_item aug_map (ns₁ ++ n :: ns₂) =
      process_dataset process_item aug_map (ns₁ ++ ns₂) := by
  unfold process_dataset
  rw [List.foldl_append, List.foldl_append, List.foldl_cons]
  simp only [h, postprocess_none]

/-- C8, witness: a run over a single `None` item equals the empty run. -/
theorem c8_witness :
    process_dataset (fun _ => none) (fun _ => []) ["x"] =
      process_dataset (fun _ => none) (fun _ => []) [] :=
  c8_none_skipped (fun _ => none) (fun _ => []) [] [] "x" rfl

/-- C9: `BaseTask.__init__` replaces `max_val_batch_frames == -1` with
`max_batch_frames` and `max_val_batch_size == -1` with `max_batch_size`,
keeps any other configured validation value unchanged, and never modifies
the train values. -/
theorem c9_val_batch_inheritance (h : TaskConfig) :
    (base_task_init h).max_batch_frames = h.max_batch_frames ∧
    (base_task_init h).max_batch_size = h.max_batch_size ∧
    (h.max_val_batch_frames = -1 →
      (base_task_init h).max_val_batch_frames = h.max_batch_frames) ∧
    (h.max_val_batch_frames ≠ -1 →
      (base_task_init h).max_val_batch_frames = h.max_val_batch_frames) ∧
    (h.max_val_batch_size = -1 →
      (base_task_init h).max_val_batch_size = h.max_batch_size) ∧
    (h.max_val_batch_size ≠ -1 →
      (base_task_init h).max_val_batch_size = h.max_val_batch_size) := by
  unfold base_task_init
  refine ⟨rfl, rfl, ?_, ?_, ?_, ?_⟩ <;> intro hc <;> simp [hc]

/-- C9, witness: with `max_batch_frames = 100`, `max_batch_size = 8`,
`max_val_batch_frames = -1`, `max_val_batch_size = 5`, the `-1` inherits
`100` while the explicit `5` is kept and train values are unchanged. -/
theorem c9_witness :
    (base_task_init ⟨100, 8, -1, 5⟩).max_batch_frames = 100 ∧
    (base_task_init ⟨100, 8, -1, 5⟩).max_val_batch_frames = 100 ∧
    (base_task_init ⟨100, 8, -1, 5⟩).max_val_batch_size = 5 :=
  ⟨(c9_val_batch_inheritance ⟨100, 8, -1, 5⟩).1,
   (c9_val_batch_inheritance ⟨100, 8, -1, 5⟩).2.2.1 (by decide),
   (c9_val_batch_inheritance ⟨100, 8, -1, 5⟩).2.2.2.2.2 (by decide)⟩

/-- C10: `BaseBinarizer.process` issues the valid-split call with
`num_workers = 0` and `apply_augmentation = False`, issues the train-split
call with the configured worker count and augmentation enabled exactly when
`augmentation_args` is non-empty, and an augmentation flag of `False` makes
`process_dataset` run with the empty augmentation map (no fan-out). -/
theorem c10_process_split_policy (num_workers_cfg : Nat)
    (augmentation_args : List String) :
    (∀ c ∈ process_split_calls num_workers_cfg augmentation_args,
        c.split_name = "valid" → c.num_workers = 0 ∧ c.apply_augmentation = false) ∧
    (∀ c ∈ process_split_calls num_workers_cfg augmentation_args,
        c.split_name = "train" →
          c.num_workers = num_workers_cfg ∧
          (c.apply_augmentation = true ↔ augmentation_args ≠ [])) ∧
    (∀ (process_item : String → Option BinarizedRecord)
        (arrange_data_augmentation : List String → String → List AugTask)
        (item_names : List String),
        process_dataset_full process_item arrange_data_augmentation false item_names =
          process_dataset process_item (fun _ => []) item_names) := by
  refine ⟨?_, ?_, ?_⟩
  · intro c hc hname
    rcases List.mem_cons.mp hc with rfl | hc'
    · exact ⟨rfl, rfl⟩
    · rcases List.mem_cons.mp hc' with rfl | hc''
      · simp at hname
      · exact absurd hc'' (List.not_mem_nil c)
  · intro c hc hname
    rcases List.mem_cons.mp hc with rfl | hc'
    · simp at hname
    · rcases List.mem_cons.mp hc' with rfl | hc''
      · refine ⟨rfl, ?_⟩
        show decide (0 < augmentation_args.length) = true ↔ _
        rw [decide_eq_true_eq, List.length_pos]
      · exact absurd hc'' (List.not_mem_nil c)
  · intro process_item arrange_data_augmentation item_names
    rfl

/-- C10, witness: at `num_workers = 4` and one augmentation key, the valid
call runs with no workers and no augmentation, and the train call has the
augmentation flag set. -/
theorem c10_witness :
    ((⟨"valid", 0, false⟩ : ProcessDatasetCall).num_workers = 0 ∧
      (⟨"valid", 0, false⟩ : ProcessDatasetCall).apply_augmentation = false) ∧
    ((⟨"train", 4, true⟩ : ProcessDatasetCall).num_workers = 4 ∧
      ((⟨"train", 4, true⟩ : ProcessDatasetCall).apply_augmentation = true ↔
        (["shift"] : List String) ≠ [])) :=
  ⟨(c10_process_split_policy 4 ["shift"]).1 ⟨"valid", 0, false⟩ (by decide) rfl,
   (c10_process_split_policy 4 ["shift"]).2.1 ⟨"train", 4, true⟩ (by decide) rfl⟩

end DiffSVC
